import Mathlib

/-!
# hardhat.config.js

A shallow embedding of the build configuration of the repository: the action
overriding `TASK_COMPILE_SOLIDITY_GET_SOURCE_PATHS` and the exported
configuration object, read from `process.env`.

JavaScript strings are sequences of UTF-16 code units; the two library
methods the file calls, `String.prototype.endsWith` and
`Array.prototype.filter`, follow the steps of their ECMAScript algorithms.
-/

namespace HardhatConfig

/-! ## Strings and values -/

/-- One UTF-16 code unit. -/
abbrev CodeUnit := Nat

/-- A JavaScript string: its sequence of UTF-16 code units. -/
abbrev JSString := List CodeUnit

/-- The code units of one character: itself in the basic plane, a surrogate
pair above it. -/
def codeUnits (c : Char) : List CodeUnit :=
  if c.toNat < 65536 then [c.toNat]
  else [55296 + (c.toNat - 65536) / 1024, 56320 + (c.toNat - 65536) % 1024]

/-- The JavaScript string written by a literal. -/
def js (s : String) : JSString :=
  s.toList.flatMap codeUnits

/-- The values the configuration handles outside lists and booleans: a lookup
in `process.env` gives `undefined` or a string. -/
inductive JSValue where
  | undefined
  | string (s : JSString)
  deriving DecidableEq, Repr

/-- The abstract operation `ToBoolean`: `undefined` and the empty string are
falsy, every other string is truthy. -/
def toBoolean : JSValue → Bool
  | .undefined => false
  | .string s => !(s.length = 0)

/-- The operator `||`: the left operand when it is truthy, else the right. -/
def logicalOr (a b : JSValue) : JSValue :=
  if toBoolean a then a else b

/-- The operator `!==` on these values. -/
def strictNe (a b : JSValue) : Bool :=
  !(a = b)

/-! ## `String.prototype.endsWith` and `Array.prototype.filter` -/

/-- The method `S.endsWith(searchStr)` with no end position: the end is the
length of `S`, an empty search string is found, a search string longer than
`S` is not, and otherwise the substring from `start` to `end` is compared. -/
def endsWith (S searchStr : JSString) : Bool :=
  let len := S.length
  let end_ := len
  let searchLength := searchStr.length
  if searchLength = 0 then true
  else
    let start : Int := (end_ : Int) - (searchLength : Int)
    if start < 0 then false
    else decide ((S.take end_).drop start.toNat = searchStr)

/-- The loop of `Array.prototype.filter`: `k` runs over the indices that are
left, an element the callback selects is appended to `A`. -/
def filterLoop {α : Type} (O : List α) (callbackfn : α → Bool) :
    Nat → Nat → List α → List α
  | 0, _, A => A
  | remaining + 1, k, A =>
    match O[k]? with
    | some kValue =>
      if callbackfn kValue then filterLoop O callbackfn remaining (k + 1) (A ++ [kValue])
      else filterLoop O callbackfn remaining (k + 1) A
    | none => filterLoop O callbackfn remaining (k + 1) A

/-- The method `O.filter(callbackfn)`: the loop from index `0` over `len`
indices, starting from an empty array. -/
def filter {α : Type} (O : List α) (callbackfn : α → Bool) : List α :=
  filterLoop O callbackfn O.length 0 []

/-! ## The source-path action -/

/-- The suffix of the files that are not compiled. -/
def nocompSuffix : JSString := js ".nocomp.sol"

/-- The action set on `TASK_COMPILE_SOLIDITY_GET_SOURCE_PATHS`; `paths` is what
`runSuper()` resolved to. -/
def getSourcePathsAction (paths : List JSString) : List JSString :=
  filter paths (fun p => !endsWith p nocompSuffix)

/-! ## The exported configuration -/

/-- The object `process.env` when the configuration is built: a variable that
is set holds a string, one that is not set is absent. -/
abbrev Env := String → Option JSString

/-- The property read `process.env.NAME`: `undefined` when the variable is
absent. -/
def processEnv (env : Env) (name : String) : JSValue :=
  match env name with
  | none => JSValue.undefined
  | some s => JSValue.string s

structure Optimizer where
  enabled : Bool
  runs : Nat
  deriving DecidableEq, Repr

structure Settings where
  optimizer : Optimizer
  deriving DecidableEq, Repr

structure Compiler where
  version : JSString
  settings : Settings
  deriving DecidableEq, Repr

structure Solidity where
  compilers : List Compiler
  deriving DecidableEq, Repr

structure Network where
  url : JSValue
  accounts : List JSValue
  deriving DecidableEq, Repr

structure Networks where
  ropsten : Network
  rinkeby : Network
  goerli : Network
  optimisticKov : Network
  kovan : Network
  deriving DecidableEq, Repr

structure GasReporter where
  enabled : Bool
  currency : JSString
  deriving DecidableEq, Repr

structure Etherscan where
  apiKey : JSValue
  deriving DecidableEq, Repr

structure Config where
  solidity : Solidity
  networks : Networks
  gasReporter : GasReporter
  etherscan : Etherscan
  deriving DecidableEq, Repr

/-- The object assigned to `module.exports`. -/
def moduleExports (env : Env) : Config where
  solidity :=
    { compilers :=
        [ { version := js "0.6.11"
            settings := { optimizer := { enabled := true, runs := 200 } } },
          { version := js "0.8.11"
            settings := { optimizer := { enabled := true, runs := 200 } } } ] }
  networks :=
    { ropsten :=
        { url := logicalOr (processEnv env "ROPSTEN_URL") (JSValue.string (js ""))
          accounts :=
            if strictNe (processEnv env "PRIVATE_KEY") JSValue.undefined
            then [processEnv env "PRIVATE_KEY"] else [] }
      rinkeby :=
        { url := logicalOr (processEnv env "RINKEBY_URL") (JSValue.string (js ""))
          accounts :=
            if strictNe (processEnv env "PRIVATE_KEY") JSValue.undefined
            then [processEnv env "PRIVATE_KEY"] else [] }
      goerli :=
        { url := logicalOr (processEnv env "GOERLI_URL") (JSValue.string (js ""))
          accounts :=
            if strictNe (processEnv env "PRIVATE_KEY") JSValue.undefined
            then [processEnv env "PRIVATE_KEY"] else [] }
      optimisticKov :=
        { url := logicalOr (processEnv env "OPTIMISTIC_KOVAN_URL") (JSValue.string (js ""))
          accounts :=
            if strictNe (processEnv env "PRIVATE_KEY") JSValue.undefined
            then [processEnv env "PRIVATE_KEY"] else [] }
      kovan :=
        { url := logicalOr (processEnv env "KOVAN_URL") (JSValue.string (js ""))
          accounts :=
            if strictNe (processEnv env "PRIVATE_KEY") JSValue.undefined
            then [processEnv env "PRIVATE_KEY"] else [] } }
  gasReporter :=
    { enabled := strictNe (processEnv env "REPORT_GAS") JSValue.undefined
      currency := js "USD" }
  etherscan :=
    { apiKey := processEnv env "ETHERSCAN_API_KEY" }

/-! ## Vocabulary of the specification -/

/-- The five networks the configuration declares. -/
inductive NetworkName where
  | ropsten
  | rinkeby
  | goerli
  | optimisticKov
  | kovan
  deriving DecidableEq, Repr

/-- The entry of `networks` under a name. -/
def Networks.get (ns : Networks) : NetworkName → Network
  | .ropsten => ns.ropsten
  | .rinkeby => ns.rinkeby
  | .goerli => ns.goerli
  | .optimisticKov => ns.optimisticKov
  | .kovan => ns.kovan

/-- The environment variable the specification pairs with each network. -/
def urlVar : NetworkName → String
  | .ropsten => "ROPSTEN_URL"
  | .rinkeby => "RINKEBY_URL"
  | .goerli => "GOERLI_URL"
  | .optimisticKov => "OPTIMISTIC_KOVAN_URL"
  | .kovan => "KOVAN_URL"

/-- The environment variables the configuration consumes. -/
def consumedVars : List String :=
  ["ROPSTEN_URL", "RINKEBY_URL", "GOERLI_URL", "OPTIMISTIC_KOVAN_URL", "KOVAN_URL",
    "PRIVATE_KEY", "REPORT_GAS", "ETHERSCAN_API_KEY"]

/-- The environment in which no variable is set. -/
def emptyEnv : Env := fun _ => none

/-- The code unit of the separator `/`. -/
def slash : CodeUnit := 47

/-- The file name of a path, in the words of the specification: the part after
the last `/`, the whole string when there is none. -/
def fileName (p : JSString) : JSString :=
  (p.reverse.takeWhile (fun c => decide (c ≠ slash))).reverse

/-! ## The library methods against their list counterparts -/

theorem filterLoop_eq {α : Type} (O : List α) (f : α → Bool) (n k : Nat) (A : List α) :
    filterLoop O f n k A = A ++ ((O.drop k).take n).filter f := by
  induction n generalizing k A with
  | zero => simp [filterLoop]
  | succ n ih =>
    unfold filterLoop
    cases hk : O[k]? with
    | none =>
      have hlen : O.length ≤ k := by
        rcases Nat.lt_or_ge k O.length with h | h
        · rw [List.getElem?_eq_getElem h] at hk
          cases hk
        · exact h
      simp only [ih]
      rw [List.drop_of_length_le hlen, List.drop_of_length_le (Nat.le_succ_of_le hlen)]
      simp
    | some x =>
      have hlt : k < O.length := by
        rcases Nat.lt_or_ge k O.length with h | h
        · exact h
        · rw [List.getElem?_eq_none h] at hk
          cases hk
      have hx : O[k] = x := by
        rw [List.getElem?_eq_getElem hlt] at hk
        exact Option.some.inj hk
      have hd : O.drop k = x :: O.drop (k + 1) := by
        rw [← hx]
        exact List.drop_eq_getElem_cons hlt
      simp only [hd, List.take_succ_cons]
      by_cases hf : f x = true
      · simp [hf, ih]
      · simp [hf, ih]

theorem filter_eq_list_filter {α : Type} (O : List α) (f : α → Bool) :
    filter O f = O.filter f := by
  simp [filter, filterLoop_eq]

theorem endsWith_iff_suffix (S s : JSString) : endsWith S s = true ↔ s <:+ S := by
  unfold endsWith
  by_cases h0 : s.length = 0
  · have : s = [] := List.length_eq_zero.mp h0
    subst this
    simp
  · by_cases hlt : ((S.length : Int) - (s.length : Int)) < 0
    · have hlen : S.length < s.length := by omega
      simp only [h0, hlt, if_true, if_false]
      constructor
      · intro h
        cases h
      · intro h
        have := h.length_le
        omega
    · have hle : s.length ≤ S.length := by omega
      have hnat : ((S.length : Int) - (s.length : Int)).toNat = S.length - s.length := by omega
      simp only [h0, hlt, if_false, hnat, List.take_length, decide_eq_true_eq]
      rw [List.suffix_iff_eq_drop]
      exact eq_comm

theorem getSourcePathsAction_eq (paths : List JSString) :
    getSourcePathsAction paths
      = paths.filter (fun p => decide (¬ js ".nocomp.sol" <:+ p)) := by
  unfold getSourcePathsAction
  rw [filter_eq_list_filter]
  apply List.filter_congr
  intro p _
  have h := endsWith_iff_suffix p nocompSuffix
  change endsWith p nocompSuffix = true ↔ js ".nocomp.sol" <:+ p at h
  by_cases hs : js ".nocomp.sol" <:+ p
  · simp [hs, h.mpr hs]
  · have : endsWith p nocompSuffix = false := by
      cases hb : endsWith p nocompSuffix with
      | false => rfl
      | true => exact absurd (h.mp hb) hs
    simp [hs, this]

/-! ## The file name of a path -/

theorem fileName_suffix (p : JSString) : fileName p <:+ p := by
  unfold fileName
  have h := List.takeWhile_prefix (fun c => decide (c ≠ slash)) (l := p.reverse)
  have h2 := List.reverse_suffix.mpr h
  rwa [List.reverse_reverse] at h2

theorem takeWhile_append_all {α : Type} (q : α → Bool) (l r : List α)
    (h : ∀ a ∈ l, q a = true) : (l ++ r).takeWhile q = l ++ r.takeWhile q := by
  induction l with
  | nil => rfl
  | cons a l ih =>
    have ha : q a = true := h a (List.mem_cons_self a l)
    have hl : ∀ b ∈ l, q b = true := fun b hb => h b (List.mem_cons_of_mem a hb)
    simp [List.takeWhile_cons, ha, ih hl]

theorem suffix_fileName_of_no_slash (s p : JSString) (hs : slash ∉ s) (h : s <:+ p) :
    s <:+ fileName p := by
  obtain ⟨t, rfl⟩ := h
  unfold fileName
  rw [List.reverse_append, takeWhile_append_all, List.reverse_append, List.reverse_reverse]
  · exact List.suffix_append _ _
  · intro a ha
    have hm : a ∈ s := List.mem_reverse.mp ha
    have : a ≠ slash := fun e => hs (e ▸ hm)
    simpa using this

/-- The file name is the part of the path after its last separator: it holds no
separator, it is the whole path when the path holds none, and otherwise the
path is a directory part, a separator and the file name. -/
theorem fileName_spec (p : JSString) :
    slash ∉ fileName p ∧
      ((slash ∉ p ∧ fileName p = p) ∨ ∃ dir, p = dir ++ slash :: fileName p) := by
  have hno : slash ∉ fileName p := by
    unfold fileName
    intro hmem
    have h1 := List.mem_reverse.mp hmem
    have h2 := List.mem_takeWhile_imp h1
    simp at h2
  refine ⟨hno, ?_⟩
  have hsplit := List.takeWhile_append_dropWhile (fun c => decide (c ≠ slash)) p.reverse
  cases hd : p.reverse.dropWhile (fun c => decide (c ≠ slash)) with
  | nil =>
    left
    have hp : fileName p = p := by
      unfold fileName
      rw [hd, List.append_nil] at hsplit
      rw [hsplit, List.reverse_reverse]
    exact ⟨hp ▸ hno, hp⟩
  | cons c rest =>
    right
    have hc : c = slash := by
      have hne : p.reverse.dropWhile (fun c => decide (c ≠ slash)) ≠ [] := by
        rw [hd]
        exact List.cons_ne_nil c rest
      have hh := List.head_dropWhile_not (fun c => decide (c ≠ slash)) p.reverse hne
      simp only [hd, List.head_cons] at hh
      simpa using hh
    refine ⟨rest.reverse, ?_⟩
    rw [hd, hc] at hsplit
    have := congrArg List.reverse hsplit
    rw [List.reverse_reverse, List.reverse_append, List.reverse_cons, List.append_assoc] at this
    unfold fileName
    simpa using this.symm

theorem logicalOr_processEnv (env : Env) (name : String) :
    logicalOr (processEnv env name) (JSValue.string (js ""))
      = (match env name with
        | none => JSValue.string (js "")
        | some value => JSValue.string value) := by
  cases h : env name with
  | none => simp [processEnv, logicalOr, toBoolean, h]
  | some value =>
    cases value with
    | nil => simp [processEnv, logicalOr, toBoolean, h, js]
    | cons c cs => simp [processEnv, logicalOr, toBoolean, h]

theorem slash_not_mem_suffix : slash ∉ js ".nocomp.sol" := by
  decide

/-! ## The source-path action: properties -/

/-- C1: for every sequence of paths the source-path action returns exactly the
paths that do not end with ".nocomp.sol", in their original order and with
their original multiplicities: the result is the list of the kept elements, a
subsequence of the input in which a path ending with the suffix occurs no
time and every other path as often as in the input; and the paths "A.sol",
"B.nocomp.sol", "C.sol" give "A.sol", "C.sol". -/
theorem getSourcePathsAction_exact :
    (∀ paths : List JSString,
      getSourcePathsAction paths
          = paths.filter (fun p => decide (¬ js ".nocomp.sol" <:+ p)) ∧
        (getSourcePathsAction paths).Sublist paths ∧
        ∀ p : JSString, (getSourcePathsAction paths).count p
          = if js ".nocomp.sol" <:+ p then 0 else paths.count p) ∧
    getSourcePathsAction [js "A.sol", js "B.nocomp.sol", js "C.sol"]
      = [js "A.sol", js "C.sol"] := by
  refine ⟨fun paths => ⟨getSourcePathsAction_eq paths, ?_, ?_⟩, by decide⟩
  · rw [getSourcePathsAction_eq]
    exact List.filter_sublist paths
  · intro p
    rw [getSourcePathsAction_eq]
    by_cases hs : js ".nocomp.sol" <:+ p
    · rw [if_pos hs]
      apply List.count_eq_zero_of_not_mem
      intro hmem
      have := (List.mem_filter.mp hmem).2
      simp [hs] at this
    · rw [if_neg hs]
      apply List.count_filter
      simpa using hs

/-- C2: the source-path action is idempotent: applied to a sequence it has
already filtered, it returns that sequence unchanged. -/
theorem getSourcePathsAction_idempotent (paths : List JSString) :
    getSourcePathsAction (getSourcePathsAction paths) = getSourcePathsAction paths := by
  rw [getSourcePathsAction_eq paths, getSourcePathsAction_eq, List.filter_filter]
  simp

/-- C3: a sequence of paths none of which ends with ".nocomp.sol" is returned
unchanged by the source-path action. -/
theorem getSourcePathsAction_unchanged (paths : List JSString)
    (h : ∀ p ∈ paths, ¬ js ".nocomp.sol" <:+ p) :
    getSourcePathsAction paths = paths := by
  rw [getSourcePathsAction_eq, List.filter_eq_self]
  intro p hp
  simpa using h p hp

theorem getSourcePathsAction_unchanged_witness :
    (∀ p ∈ [js "A.sol", js "contracts/C.sol"], ¬ js ".nocomp.sol" <:+ p) ∧
      getSourcePathsAction [js "A.sol", js "contracts/C.sol"]
        = [js "A.sol", js "contracts/C.sol"] :=
  ⟨by decide, getSourcePathsAction_unchanged [js "A.sol", js "contracts/C.sol"] (by decide)⟩

/-- C4: the test the action makes on the whole path agrees with the test on
the file name: a path ends with ".nocomp.sol" exactly when the part after its
last separator does, and the action drops a path exactly in that case. -/
theorem endsWith_path_iff_fileName (p : JSString) :
    (endsWith p (js ".nocomp.sol") = true ↔ endsWith (fileName p) (js ".nocomp.sol") = true) ∧
      (getSourcePathsAction [p] = [] ↔ endsWith (fileName p) (js ".nocomp.sol") = true) := by
  have key : endsWith p (js ".nocomp.sol") = true
      ↔ endsWith (fileName p) (js ".nocomp.sol") = true := by
    rw [endsWith_iff_suffix, endsWith_iff_suffix]
    constructor
    · exact suffix_fileName_of_no_slash _ p slash_not_mem_suffix
    · intro h
      exact h.trans (fileName_suffix p)
  refine ⟨key, ?_⟩
  rw [← key, endsWith_iff_suffix, getSourcePathsAction_eq]
  by_cases hs : js ".nocomp.sol" <:+ p
  · simp [hs]
  · simp [hs]

/-- C9: the source-path action returns the empty sequence on the empty
sequence. -/
theorem getSourcePathsAction_nil : getSourcePathsAction [] = [] := by
  rfl

/-- C10: the source-path action decides each path on its own: on a
concatenation it returns the concatenation of its results on the two parts. -/
theorem getSourcePathsAction_append (xs ys : List JSString) :
    getSourcePathsAction (xs ++ ys) = getSourcePathsAction xs ++ getSourcePathsAction ys := by
  simp only [getSourcePathsAction, filter_eq_list_filter, List.filter_append]

/-! ## The exported configuration: properties -/

/-- C5: in every environment and for each of the five networks, the accounts
list is empty when PRIVATE_KEY is not set and holds exactly the key when it is
set; it never holds undefined, and it holds the empty string only when
PRIVATE_KEY is set to the empty string. -/
theorem accounts_of_private_key (env : Env) (n : NetworkName) :
    ((moduleExports env).networks.get n).accounts
        = (match env "PRIVATE_KEY" with
          | none => []
          | some key => [JSValue.string key]) ∧
      JSValue.undefined ∉ ((moduleExports env).networks.get n).accounts ∧
      (JSValue.string (js "") ∈ ((moduleExports env).networks.get n).accounts
        ↔ env "PRIVATE_KEY" = some (js "")) := by
  cases n <;> cases h : env "PRIVATE_KEY" <;>
    simp [moduleExports, Networks.get, processEnv, strictNe, h, js]

/-- C6: in every environment and for each of the five networks, the url is a
string: the value of the network's URL variable when that variable is set (to
a non-empty string or to the empty one), the empty string when it is absent. -/
theorem url_of_env (env : Env) (n : NetworkName) :
    ((moduleExports env).networks.get n).url
      = (match env (urlVar n) with
        | none => JSValue.string (js "")
        | some value => JSValue.string value) := by
  cases n <;> exact logicalOr_processEnv env _

/-- C7, as stated, fails: with no variable set the block-explorer API key is
undefined, not the empty string. -/
theorem apiKey_not_empty_string :
    consumedVars.all (fun v => (emptyEnv v).isNone) = true ∧
      (moduleExports emptyEnv).etherscan.apiKey = JSValue.undefined ∧
      (moduleExports emptyEnv).etherscan.apiKey ≠ JSValue.string (js "") := by
  refine ⟨by decide, rfl, ?_⟩
  intro h
  cases h

/-- C7, amended: when none of the consumed variables is set, the url of each
of the five networks is the empty string, each accounts list is empty, and the
block-explorer API key is undefined. -/
theorem config_of_unset_env (env : Env) (h : ∀ v ∈ consumedVars, env v = none) :
    (∀ n : NetworkName,
        ((moduleExports env).networks.get n).url = JSValue.string (js "") ∧
        ((moduleExports env).networks.get n).accounts = []) ∧
      (moduleExports env).etherscan.apiKey = JSValue.undefined := by
  have hk : env "PRIVATE_KEY" = none := h _ (by decide)
  have ha : env "ETHERSCAN_API_KEY" = none := h _ (by decide)
  refine ⟨fun n => ?_, by simp [moduleExports, processEnv, ha]⟩
  have hu : env (urlVar n) = none := h _ (by cases n <;> decide)
  cases n <;> simp only [urlVar] at hu <;>
    simp [moduleExports, Networks.get, processEnv, logicalOr, toBoolean, strictNe, hk, hu]

theorem config_of_unset_env_witness :
    (∀ v ∈ consumedVars, emptyEnv v = none) ∧
      ((∀ n : NetworkName,
          ((moduleExports emptyEnv).networks.get n).url = JSValue.string (js "") ∧
          ((moduleExports emptyEnv).networks.get n).accounts = []) ∧
        (moduleExports emptyEnv).etherscan.apiKey = JSValue.undefined) :=
  ⟨fun _ _ => rfl, config_of_unset_env emptyEnv (fun _ _ => rfl)⟩

/-- C8: in every environment the gas reporter is enabled exactly when
REPORT_GAS is set, whatever its value, and its currency is "USD". -/
theorem gasReporter_of_env (env : Env) :
    ((moduleExports env).gasReporter.enabled = true ↔ ∃ value, env "REPORT_GAS" = some value) ∧
      (moduleExports env).gasReporter.currency = js "USD" := by
  refine ⟨?_, rfl⟩
  cases h : env "REPORT_GAS" <;> simp [moduleExports, processEnv, strictNe, h]

end HardhatConfig
